import Mathlib

/-!
Verification of the numerical core of the flash_snowglobes pipeline.

The Python/numpy source is embedded shallowly:
* float values are modelled as rationals (`ℚ`), so every algebraic identity
  below is an exact-arithmetic statement about the source formulas;
* numpy arrays are modelled either as length-indexed functions `ℕ → ℚ`
  (with an explicit length where the source uses one) or as `List ℚ`;
* fallible numpy operations are modelled with explicit result types:
  `PyResult` distinguishes a finite value, a non-finite value (NaN or
  infinity from a zero denominator) and an out-of-bounds index error.
-/

namespace FlashSnowglobes

/-- Result of a numpy array computation: a finite value, a non-finite value
(NaN/inf produced by a zero denominator), or an out-of-bounds index error. -/
inductive PyResult where
  | ok (q : ℚ)
  | nonfinite
  | indexError
  deriving DecidableEq, Repr

/-- Python array indexing `a[i]` on an array of length `n` (given as a
function): indices `0 ≤ i < n` are direct, indices `-n ≤ i < 0` wrap around
to `i + n`, anything else is an index error (`none`). -/
def pyGet (n : ℕ) (f : ℕ → ℚ) (i : ℤ) : Option ℚ :=
  if 0 ≤ i ∧ i < (n : ℤ) then some (f i.toNat)
  else if -(n : ℤ) ≤ i ∧ i < 0 then some (f (i + n).toNat)
  else none

/-- `np.searchsorted(time, t)` (side 'left') on a sorted array of length `n`:
the number of entries strictly below `t`, i.e. the left insertion point. -/
def searchsorted (n : ℕ) (time : ℕ → ℚ) (t : ℚ) : ℕ :=
  ((Finset.range n).filter (fun i => time i < t)).card

/-- `convert.interpolate_time`: linear interpolation of `y` at query time `t`.
`i_right = searchsorted(time, t)`, `i_left = i_right - 1` (which wraps around
for `i_right = 0`), then `(y0*(t1-t) + y1*(t-t0)) / (t1-t0)`.  A zero
denominator gives a non-finite float; an out-of-range index raises. -/
def interpolate_time (t : ℚ) (n : ℕ) (time y : ℕ → ℚ) : PyResult :=
  let i_right : ℤ := (searchsorted n time t : ℕ)
  let i_left : ℤ := i_right - 1
  match pyGet n y i_left, pyGet n y i_right, pyGet n time i_left, pyGet n time i_right with
  | some y0, some y1, some t0, some t1 =>
      if t1 - t0 = 0 then .nonfinite
      else .ok ((y0 * (t1 - t) + y1 * (t - t0)) / (t1 - t0))
  | _, _, _, _ => .indexError

lemma pyGet_of_lt (n : ℕ) (f : ℕ → ℚ) (i : ℕ) (h : i < n) :
    pyGet n f (i : ℤ) = some (f i) := by
  unfold pyGet
  rw [if_pos ⟨Int.natCast_nonneg i, by exact_mod_cast h⟩]
  simp

lemma pyGet_neg_one (n : ℕ) (f : ℕ → ℚ) (h : 0 < n) :
    pyGet n f (-1) = some (f (n - 1)) := by
  unfold pyGet
  rw [if_neg (by omega), if_pos (by constructor <;> omega)]
  congr 1
  congr 1
  omega

lemma pyGet_of_ge (n : ℕ) (f : ℕ → ℚ) (i : ℤ) (h : (n : ℤ) ≤ i) :
    pyGet n f i = none := by
  unfold pyGet
  rw [if_neg (by omega), if_neg (by omega)]

/-- On a strictly increasing array, the left insertion point of a stored
value `time k` is exactly `k`. -/
lemma searchsorted_at_sample (n k : ℕ) (time : ℕ → ℚ)
    (hmono : ∀ i j, i < j → j < n → time i < time j) (hk : k < n) :
    searchsorted n time (time k) = k := by
  unfold searchsorted
  have hset : (Finset.range n).filter (fun i => time i < time k) = Finset.range k := by
    ext i
    simp only [Finset.mem_filter, Finset.mem_range]
    constructor
    · rintro ⟨hin, hlt⟩
      by_contra hge
      push_neg at hge
      rcases Nat.lt_or_ge k i with h | h
      · exact absurd hlt (not_lt.mpr (le_of_lt (hmono k i h hin)))
      · have : i = k := le_antisymm h hge
        rw [this] at hlt
        exact lt_irrefl _ hlt
    · intro hik
      exact ⟨lt_trans hik hk, hmono i k hik hk⟩
  rw [hset, Finset.card_range]

/-- If every stored value is below `t`, the left insertion point is `n`. -/
lemma searchsorted_of_all_lt (n : ℕ) (time : ℕ → ℚ) (t : ℚ)
    (h : ∀ i, i < n → time i < t) :
    searchsorted n time t = n := by
  unfold searchsorted
  rw [Finset.filter_true_of_mem (fun i hi => h i (Finset.mem_range.mp hi)), Finset.card_range]

/-- If `t` is below every stored value, the left insertion point is `0`. -/
lemma searchsorted_of_all_gt (n : ℕ) (time : ℕ → ℚ) (t : ℚ)
    (h : ∀ i, i < n → t ≤ time i) :
    searchsorted n time t = 0 := by
  unfold searchsorted
  rw [Finset.filter_false_of_mem, Finset.card_empty]
  intro i hi
  exact not_lt.mpr (h i (Finset.mem_range.mp hi))

/-- C2 (amended): on a strictly increasing time array with at least two
entries, interpolating at a stored timestep `time k` returns exactly the
stored value `y k` — including at the very first timestep `time 0`, where
the index search wraps around to the last array entry but the algebra still
collapses to `y 0` exactly. -/
theorem interpolate_time_exact (n k : ℕ) (time y : ℕ → ℚ)
    (hmono : ∀ i j, i < j → j < n → time i < time j)
    (hn : 2 ≤ n) (hk : k < n) :
    interpolate_time (time k) n time y = .ok (y k) := by
  unfold interpolate_time
  rw [searchsorted_at_sample n k time hmono hk]
  dsimp only
  rcases Nat.eq_zero_or_pos k with hk0 | hkpos
  · subst hk0
    have h1 : ((0 : ℕ) : ℤ) - 1 = -1 := by omega
    rw [h1, pyGet_neg_one n y (by omega), pyGet_neg_one n time (by omega),
        pyGet_of_lt n y 0 hk, pyGet_of_lt n time 0 hk]
    have hne : time 0 - time (n - 1) ≠ 0 := by
      have : time 0 < time (n - 1) := hmono 0 (n - 1) (by omega) (by omega)
      intro hc
      have : time 0 = time (n - 1) := by linarith [sub_eq_zero.mp hc]
      linarith
    dsimp only
    rw [if_neg (by intro hc; exact hne hc)]
    congr 1
    field_simp
  · have h1 : (k : ℤ) - 1 = ((k - 1 : ℕ) : ℤ) := by omega
    rw [h1, pyGet_of_lt n y (k - 1) (by omega), pyGet_of_lt n time (k - 1) (by omega),
        pyGet_of_lt n y k hk, pyGet_of_lt n time k hk]
    have hlt : time (k - 1) < time k := hmono (k - 1) k (by omega) hk
    have hne : time k - time (k - 1) ≠ 0 := sub_ne_zero.mpr (ne_of_gt hlt)
    dsimp only
    rw [if_neg (by intro hc; exact hne hc)]
    congr 1
    field_simp

/-- Witness for C2's amended theorem at a concrete input. -/
theorem interpolate_time_exact_witness :
    interpolate_time ((fun i => (i : ℚ)) 1) 3 (fun i => (i : ℚ)) (fun i => 10 * (i : ℚ) + 1)
      = .ok ((fun i => 10 * (i : ℚ) + 1) 1) :=
  interpolate_time_exact 3 1 (fun i => (i : ℚ)) (fun i => 10 * (i : ℚ) + 1)
    (fun i j hij hj => by dsimp only; exact_mod_cast hij) (by omega) (by omega)

/-- C2 counterexample: for a single-element time array (which is trivially
strictly increasing) the query `t = time 0` makes both interpolation nodes
the same element, the denominator is zero, and the result is the non-finite
float NaN rather than the stored value. -/
theorem interpolate_time_singleton_not_exact :
    interpolate_time 3 1 (fun _ => (3 : ℚ)) (fun _ => (5 : ℚ)) ≠ .ok 5 := by
  have h : searchsorted 1 (fun _ => (3 : ℚ)) 3 = 0 := by decide
  simp only [interpolate_time, h]
  norm_num [pyGet]
  decide

/-- C3 (amended): on a strictly increasing time array with at least two
entries, a query above the last timestep hits an out-of-bounds index error,
while a query below the first timestep silently returns a finite numeric
value computed from wrapped-around array elements (the last and first
entries) — not a domain error. -/
theorem interpolate_time_out_of_range (n : ℕ) (time y : ℕ → ℚ) (t : ℚ)
    (hmono : ∀ i j, i < j → j < n → time i < time j) (hn : 2 ≤ n) :
    (time (n - 1) < t → interpolate_time t n time y = .indexError) ∧
    (t < time 0 → ∃ q, interpolate_time t n time y = .ok q) := by
  constructor
  · intro habove
    have hss : searchsorted n time t = n := by
      apply searchsorted_of_all_lt
      intro i hi
      rcases Nat.lt_or_ge i (n - 1) with h | h
      · exact lt_trans (hmono i (n - 1) h (by omega)) habove
      · have : i = n - 1 := by omega
        rw [this]
        exact habove
    unfold interpolate_time
    rw [hss]
    dsimp only
    have h1 : ((n : ℕ) : ℤ) - 1 = ((n - 1 : ℕ) : ℤ) := by omega
    rw [h1, pyGet_of_lt n y (n - 1) (by omega), pyGet_of_ge n y (n : ℤ) (by omega)]
  · intro hbelow
    have hss : searchsorted n time t = 0 := by
      apply searchsorted_of_all_gt
      intro i hi
      rcases Nat.eq_zero_or_pos i with h | h
      · rw [h]; exact le_of_lt hbelow
      · exact le_of_lt (lt_trans hbelow (hmono 0 i h hi))
    unfold interpolate_time
    rw [hss]
    dsimp only
    have h1 : ((0 : ℕ) : ℤ) - 1 = -1 := by omega
    rw [h1, pyGet_neg_one n y (by omega), pyGet_neg_one n time (by omega),
        pyGet_of_lt n y 0 (by omega), pyGet_of_lt n time 0 (by omega)]
    have hne : time 0 - time (n - 1) ≠ 0 := by
      have : time 0 < time (n - 1) := hmono 0 (n - 1) (by omega) (by omega)
      intro hc
      have : time 0 = time (n - 1) := by linarith [sub_eq_zero.mp hc]
      linarith
    dsimp only
    rw [if_neg (by intro hc; exact hne hc)]
    exact ⟨_, rfl⟩

/-- Concrete raw time array `[1, 2, 3]` used in out-of-range examples. -/
def timeC : ℕ → ℚ := fun i => if i = 0 then 1 else if i = 1 then 2 else 3

/-- Concrete value array `[10, 20, 40]` used in out-of-range examples. -/
def yC : ℕ → ℚ := fun i => if i = 0 then 10 else if i = 1 then 20 else 40

lemma timeC_mono : ∀ i j, i < j → j < 3 → timeC i < timeC j := by
  intro i j hij hj
  interval_cases j <;> interval_cases i <;> norm_num [timeC]

/-- Witness for C3's amended theorem at concrete inputs. -/
theorem interpolate_time_out_of_range_witness :
    interpolate_time 4 3 timeC yC = .indexError ∧
    ∃ q, interpolate_time 0 3 timeC yC = .ok q :=
  ⟨(interpolate_time_out_of_range 3 timeC yC 4 timeC_mono (by omega)).1 (by norm_num [timeC]),
   (interpolate_time_out_of_range 3 timeC yC 0 timeC_mono (by omega)).2 (by norm_num [timeC])⟩

/-- C3 counterexample: a query below the valid time range (`t = 0` against
raw times `[1, 2, 3]`) silently returns the finite value `-5`, computed from
the wrapped-around last timestep, instead of propagating a domain error. -/
theorem interpolate_time_below_range_silent :
    interpolate_time 0 3 timeC yC = .ok (-5) := by
  have hss : searchsorted 3 timeC 0 = 0 := by decide
  simp only [interpolate_time, hss]
  norm_num [pyGet, timeC, yC, show Int.toNat 2 = 2 from rfl]

/-- Python slice endpoint normalization for `a[i:j]` on an array of
length `n`: negative endpoints wrap by `+ n`, then clamp into `[0, n]`. -/
def pyClamp (n : ℕ) (i : ℤ) : ℕ :=
  if i < 0 then (max 0 (i + n)).toNat else min i.toNat n

/-- Python slice `a[i:j]` on an array of length `n` given as a function. -/
def pySliceF (n : ℕ) (f : ℕ → ℚ) (i j : ℤ) : List ℚ :=
  (List.range (pyClamp n j - pyClamp n i)).map (fun m => f (pyClamp n i + m))

/-- numpy fancy assignment `a[[0, -1]] = [u, v]`: writes index `0`, then the
last index (on a one-element array the second write wins). -/
def setFirstLast (l : List ℚ) (u v : ℚ) : List ℚ :=
  (l.set 0 u).set (l.length - 1) v

/-- `convert.slice_timebin` for a single variable column: slice raw indices
`i_left-1 : i_right+1` out of the raw time and variable arrays, then
overwrite both endpoints of the local time slice with the exact bin edges
and both endpoints of the variable slice with the interpolated edge values.
An interpolation index error makes the whole call fail. -/
def slice_timebin (tL tR : ℚ) (n : ℕ) (time y : ℕ → ℚ) :
    Option (List ℚ × List ℚ) :=
  let iL : ℤ := (searchsorted n time tL : ℕ)
  let iR : ℤ := (searchsorted n time tR : ℕ)
  let ts := setFirstLast (pySliceF n time (iL - 1) (iR + 1)) tL tR
  match interpolate_time tL n time y, interpolate_time tR n time y with
  | .ok eL, .ok eR => some (ts, setFirstLast (pySliceF n y (iL - 1) (iR + 1)) eL eR)
  | _, _ => none

lemma searchsorted_pos (n : ℕ) (time : ℕ → ℚ) (t : ℚ) (hn : 0 < n)
    (h : time 0 < t) : 1 ≤ searchsorted n time t := by
  unfold searchsorted
  have hmem : (0 : ℕ) ∈ (Finset.range n).filter (fun i => time i < t) := by
    simp only [Finset.mem_filter, Finset.mem_range]
    exact ⟨hn, h⟩
  exact Finset.card_pos.mpr ⟨0, hmem⟩

lemma searchsorted_le_pred (n : ℕ) (time : ℕ → ℚ) (t : ℚ)
    (h : t ≤ time (n - 1)) : searchsorted n time t ≤ n - 1 := by
  unfold searchsorted
  have hsub : (Finset.range n).filter (fun i => time i < t) ⊆
      Finset.range (n - 1) := by
    intro i hi
    simp only [Finset.mem_filter, Finset.mem_range] at hi ⊢
    rcases hi with ⟨hin, hit⟩
    by_contra hge
    have : i = n - 1 := by omega
    rw [this] at hit
    exact absurd h (not_le.mpr hit)
  calc ((Finset.range n).filter (fun i => time i < t)).card
      ≤ (Finset.range (n - 1)).card := Finset.card_le_card hsub
    _ = n - 1 := Finset.card_range (n - 1)

lemma searchsorted_mono (n : ℕ) (time : ℕ → ℚ) (t1 t2 : ℚ) (h : t1 ≤ t2) :
    searchsorted n time t1 ≤ searchsorted n time t2 := by
  unfold searchsorted
  apply Finset.card_le_card
  intro i hi
  simp only [Finset.mem_filter, Finset.mem_range] at hi ⊢
  exact ⟨hi.1, lt_of_lt_of_le hi.2 h⟩

/-- An in-range query (insertion point strictly between the array ends)
interpolates to a finite value. -/
lemma interpolate_time_ok (n : ℕ) (time y : ℕ → ℚ) (t : ℚ)
    (hmono : ∀ i j, i < j → j < n → time i < time j)
    (h1 : 1 ≤ searchsorted n time t) (h2 : searchsorted n time t ≤ n - 1)
    (hn : 2 ≤ n) :
    ∃ q, interpolate_time t n time y = .ok q := by
  unfold interpolate_time
  dsimp only
  have h1' : ((searchsorted n time t : ℕ) : ℤ) - 1
      = ((searchsorted n time t - 1 : ℕ) : ℤ) := by omega
  rw [h1', pyGet_of_lt n y (searchsorted n time t - 1) (by omega),
      pyGet_of_lt n time (searchsorted n time t - 1) (by omega),
      pyGet_of_lt n y (searchsorted n time t) (by omega),
      pyGet_of_lt n time (searchsorted n time t) (by omega)]
  have hlt : time (searchsorted n time t - 1) < time (searchsorted n time t) :=
    hmono _ _ (by omega) (by omega)
  have hne : time (searchsorted n time t) - time (searchsorted n time t - 1) ≠ 0 :=
    sub_ne_zero.mpr (ne_of_gt hlt)
  dsimp only
  rw [if_neg (by intro hc; exact hne hc)]
  exact ⟨_, rfl⟩

lemma pyClamp_eq (n : ℕ) (i : ℤ) (h0 : 0 ≤ i) (h : i ≤ (n : ℤ)) :
    pyClamp n i = i.toNat := by
  unfold pyClamp
  rw [if_neg (by omega)]
  omega

lemma length_pySliceF (n : ℕ) (f : ℕ → ℚ) (i j : ℤ) :
    (pySliceF n f i j).length = pyClamp n j - pyClamp n i := by
  simp [pySliceF]

lemma length_setFirstLast (l : List ℚ) (u v : ℚ) :
    (setFirstLast l u v).length = l.length := by
  simp [setFirstLast]

lemma setFirstLast_head? (l : List ℚ) (u v : ℚ) (h : 2 ≤ l.length) :
    (setFirstLast l u v).head? = some u := by
  unfold setFirstLast
  rw [List.head?_eq_getElem?]
  rw [List.getElem?_set_ne (by simp; omega)]
  rw [List.getElem?_set_self (by omega)]

lemma setFirstLast_getLast? (l : List ℚ) (u v : ℚ) (h : 1 ≤ l.length) :
    (setFirstLast l u v).getLast? = some v := by
  unfold setFirstLast
  rw [List.getLast?_eq_getElem?]
  simp only [List.length_set]
  rw [List.getElem?_set_self (by simp; omega)]

/-- C4: for bin edges strictly inside the raw time range of a strictly
increasing time array, `slice_timebin` succeeds, the first and last entries
of the bin-local time slice are exactly the bin edges `tL` and `tR`, and the
first and last entries of the variable slice are exactly the interpolated
values at those edges — never the neighbouring raw-timestep values. -/
theorem slice_timebin_edge_exact (tL tR : ℚ) (n : ℕ) (time y : ℕ → ℚ)
    (hmono : ∀ i j, i < j → j < n → time i < time j) (hn : 2 ≤ n)
    (hL : time 0 < tL) (hLR : tL < tR) (hR : tR < time (n - 1)) :
    ∃ eL eR ts ys,
      interpolate_time tL n time y = .ok eL ∧
      interpolate_time tR n time y = .ok eR ∧
      slice_timebin tL tR n time y = some (ts, ys) ∧
      2 ≤ ts.length ∧
      ts.head? = some tL ∧ ts.getLast? = some tR ∧
      ys.head? = some eL ∧ ys.getLast? = some eR := by
  have hL1 : 1 ≤ searchsorted n time tL :=
    searchsorted_pos n time tL (by omega) hL
  have hL2 : searchsorted n time tL ≤ n - 1 :=
    searchsorted_le_pred n time tL (le_of_lt (lt_trans hLR hR))
  have hR1 : 1 ≤ searchsorted n time tR :=
    searchsorted_pos n time tR (by omega) (lt_trans hL hLR)
  have hR2 : searchsorted n time tR ≤ n - 1 :=
    searchsorted_le_pred n time tR (le_of_lt hR)
  have hLR' : searchsorted n time tL ≤ searchsorted n time tR :=
    searchsorted_mono n time tL tR (le_of_lt hLR)
  obtain ⟨eL, heL⟩ := interpolate_time_ok n time y tL hmono hL1 hL2 hn
  obtain ⟨eR, heR⟩ := interpolate_time_ok n time y tR hmono hR1 hR2 hn
  have hclampL : pyClamp n ((searchsorted n time tL : ℕ) - 1 : ℤ)
      = searchsorted n time tL - 1 := by
    rw [pyClamp_eq n _ (by omega) (by omega)]
    omega
  have hclampR : pyClamp n ((searchsorted n time tR : ℕ) + 1 : ℤ)
      = searchsorted n time tR + 1 := by
    rw [pyClamp_eq n _ (by omega) (by omega)]
    omega
  have hlen : ∀ f : ℕ → ℚ, 2 ≤ (pySliceF n f
      ((searchsorted n time tL : ℕ) - 1 : ℤ)
      ((searchsorted n time tR : ℕ) + 1 : ℤ)).length := by
    intro f
    rw [length_pySliceF, hclampL, hclampR]
    omega
  refine ⟨eL, eR,
    setFirstLast (pySliceF n time ((searchsorted n time tL : ℕ) - 1 : ℤ)
      ((searchsorted n time tR : ℕ) + 1 : ℤ)) tL tR,
    setFirstLast (pySliceF n y ((searchsorted n time tL : ℕ) - 1 : ℤ)
      ((searchsorted n time tR : ℕ) + 1 : ℤ)) eL eR,
    heL, heR, ?_, ?_, ?_, ?_, ?_, ?_⟩
  · unfold slice_timebin
    dsimp only
    rw [heL, heR]
  · rw [length_setFirstLast]
    exact hlen time
  · exact setFirstLast_head? _ tL tR (hlen time)
  · exact setFirstLast_getLast? _ tL tR (by have := hlen time; omega)
  · exact setFirstLast_head? _ eL eR (hlen y)
  · exact setFirstLast_getLast? _ eL eR (by have := hlen y; omega)

/-- Witness for C4 at a concrete input: raw times `[1, 2, 3]`, values
`[10, 20, 40]`, bin edges `(3/2, 5/2)`. -/
theorem slice_timebin_edge_exact_witness :
    ∃ eL eR ts ys,
      interpolate_time (3 / 2) 3 timeC yC = .ok eL ∧
      interpolate_time (5 / 2) 3 timeC yC = .ok eR ∧
      slice_timebin (3 / 2) (5 / 2) 3 timeC yC = some (ts, ys) ∧
      2 ≤ ts.length ∧
      ts.head? = some (3 / 2) ∧ ts.getLast? = some (5 / 2) ∧
      ys.head? = some eL ∧ ys.getLast? = some eR :=
  slice_timebin_edge_exact (3 / 2) (5 / 2) 3 timeC yC timeC_mono (by omega)
    (by norm_num [timeC]) (by norm_num) (by norm_num [timeC])

/-- `convert.get_alpha`: pinch parameter
`(rms·rms − 2·avg·avg) / (avg·avg − rms·rms)`. -/
def get_alpha (avg rms : ℚ) : ℚ :=
  (rms * rms - 2 * avg * avg) / (avg * avg - rms * rms)

/-- `convert.get_phi` with the transcendental float functions `x ** y`,
`exp` and `Γ` abstracted as parameters `powQ`, `expQ`, `gammaQ`:
`n = (α+1)^(α+1) / (avg·Γ(α+1))` and
`φ = n · (e/avg)^α · exp(−(α+1)·e/avg)`. -/
def get_phi (powQ : ℚ → ℚ → ℚ) (expQ gammaQ : ℚ → ℚ)
    (e_bin avg alpha : ℚ) : ℚ :=
  let n := powQ (alpha + 1) (alpha + 1) / (avg * gammaQ (alpha + 1))
  n * powQ (e_bin / avg) alpha * expQ (-(alpha + 1) * e_bin / avg)

/-- `convert.get_flux_spectrum`, entrywise over (sample time, flavor,
energy bin): `e_binsize = np.diff(e_bins)[0]`,
`lum_to_flux = 1/(4·π·dist²)`, and each entry is
`lum_to_flux · (lum/avg) · φ · e_binsize`. -/
def get_flux_spectrum (powQ : ℚ → ℚ → ℚ) (expQ gammaQ : ℚ → ℚ) (piQ : ℚ)
    (e_bins : List ℚ) (lum avg rms : ℕ → ℕ → ℚ) (dist : ℚ) :
    ℕ → ℕ → ℕ → ℚ := fun t j k =>
  let e_binsize := e_bins.getD 1 0 - e_bins.getD 0 0
  let alpha := get_alpha (avg t j) (rms t j)
  let lum_to_flux := 1 / (4 * piQ * dist ^ 2)
  lum_to_flux * (lum t j / avg t j) *
    get_phi powQ expQ gammaQ (e_bins.getD k 0) (avg t j) alpha * e_binsize

/-- C5: every entry of the flux spectrum equals the pinched-spectrum formula
`flux = 1/(4π·d²) · (L/⟨E⟩) · φ(E) · ΔE` with
`α = (E_rms² − 2⟨E⟩²)/(⟨E⟩² − E_rms²)`,
`φ(E) = N · (E/⟨E⟩)^α · exp(−(α+1)·E/⟨E⟩)`,
`N = (α+1)^(α+1)/(⟨E⟩·Γ(α+1))` and `ΔE = e_bins[1] − e_bins[0]`. -/
theorem get_flux_spectrum_formula (powQ : ℚ → ℚ → ℚ) (expQ gammaQ : ℚ → ℚ)
    (piQ : ℚ) (e_bins : List ℚ) (lum avg rms : ℕ → ℕ → ℚ) (dist : ℚ)
    (t j k : ℕ)
    (havg : 0 < avg t j) (hrms : rms t j ≠ avg t j)
    (huniform : ∀ m, m + 1 < e_bins.length →
      e_bins.getD (m + 1) 0 - e_bins.getD m 0 = e_bins.getD 1 0 - e_bins.getD 0 0)
    (hk : k < e_bins.length) :
    get_flux_spectrum powQ expQ gammaQ piQ e_bins lum avg rms dist t j k =
      (1 / (4 * piQ * dist ^ 2)) * (lum t j / avg t j) *
        ((powQ ((rms t j ^ 2 - 2 * avg t j ^ 2) / (avg t j ^ 2 - rms t j ^ 2) + 1)
              ((rms t j ^ 2 - 2 * avg t j ^ 2) / (avg t j ^ 2 - rms t j ^ 2) + 1) /
            (avg t j *
              gammaQ ((rms t j ^ 2 - 2 * avg t j ^ 2) / (avg t j ^ 2 - rms t j ^ 2) + 1))) *
          powQ (e_bins.getD k 0 / avg t j)
            ((rms t j ^ 2 - 2 * avg t j ^ 2) / (avg t j ^ 2 - rms t j ^ 2)) *
          expQ (-((rms t j ^ 2 - 2 * avg t j ^ 2) / (avg t j ^ 2 - rms t j ^ 2) + 1) *
            e_bins.getD k 0 / avg t j)) *
        (e_bins.getD 1 0 - e_bins.getD 0 0) := by
  unfold get_flux_spectrum get_phi get_alpha
  dsimp only
  rw [show rms t j * rms t j - 2 * avg t j * avg t j
        = rms t j ^ 2 - 2 * avg t j ^ 2 by ring,
      show avg t j * avg t j - rms t j * rms t j
        = avg t j ^ 2 - rms t j ^ 2 by ring]

/-- Witness for C5 at concrete inputs (`avg = 1`, `rms = 2`, two energy
bins, with arbitrary computable stand-ins for pow, exp and Γ). -/
theorem get_flux_spectrum_formula_witness :
    get_flux_spectrum (fun a b => a + b) id id 1 [1, 2]
        (fun _ _ => 1) (fun _ _ => 1) (fun _ _ => 2) 1 0 0 0 =
      (1 / (4 * 1 * (1 : ℚ) ^ 2)) * ((1 : ℚ) / 1) *
        (((fun (a b : ℚ) => a + b) (((2 : ℚ) ^ 2 - 2 * 1 ^ 2) / (1 ^ 2 - 2 ^ 2) + 1)
              (((2 : ℚ) ^ 2 - 2 * 1 ^ 2) / (1 ^ 2 - 2 ^ 2) + 1) /
            (1 * id (((2 : ℚ) ^ 2 - 2 * 1 ^ 2) / (1 ^ 2 - 2 ^ 2) + 1))) *
          (fun (a b : ℚ) => a + b) ([(1 : ℚ), 2].getD 0 0 / 1)
            (((2 : ℚ) ^ 2 - 2 * 1 ^ 2) / (1 ^ 2 - 2 ^ 2)) *
          id (-(((2 : ℚ) ^ 2 - 2 * 1 ^ 2) / (1 ^ 2 - 2 ^ 2) + 1) *
            [(1 : ℚ), 2].getD 0 0 / 1)) *
        ([(1 : ℚ), 2].getD 1 0 - [(1 : ℚ), 2].getD 0 0) := by
  have h := get_flux_spectrum_formula (fun a b => a + b) id id 1 [1, 2]
    (fun _ _ => 1) (fun _ _ => 1) (fun _ _ => 2) 1 0 0 0
    (by norm_num) (by norm_num)
    (by
      intro m hm
      simp only [List.length_cons, List.length_nil] at hm
      have hm0 : m = 0 := by omega
      subst hm0
      rfl)
    (by norm_num)
  simpa using h

/-- `scipy.integrate.trapz(y, x)`: the trapezoidal rule
`Σ_m (x[m+1] − x[m]) · (y[m] + y[m+1]) / 2`. -/
def trapz (y x : List ℚ) : ℚ :=
  ∑ m ∈ Finset.range (x.length - 1),
    (x.getD (m + 1) 0 - x.getD m 0) * (y.getD m 0 + y.getD (m + 1) 0) / 2

/-- `full_timebins = np.append(timebins, timebins[-1] + dt)` with
`dt = np.diff(timebins)[0]` — the left bin edges plus one closing edge. -/
def full_timebins (timebins : List ℚ) : List ℚ :=
  timebins ++ [timebins.getD (timebins.length - 1) 0 +
    (timebins.getD 1 0 - timebins.getD 0 0)]

/-- One loop iteration of `convert.get_fluences`: slice the three variable
arrays (per flavor column) into the bin `[tL, tR]`, evaluate the flux
spectrum on the bin-local samples, and integrate it over the bin-local time
slice with the trapezoidal rule, giving one `[flavor][energy bin]` row. -/
def fluence_bin (powQ : ℚ → ℚ → ℚ) (expQ gammaQ : ℚ → ℚ) (piQ : ℚ)
    (n : ℕ) (time : ℕ → ℚ) (lum avg rms : ℕ → ℕ → ℚ) (dist : ℚ)
    (e_bins : List ℚ) (tL tR : ℚ) : Option (List (List ℚ)) := do
  let slicesL ← (List.range 3).mapM
    (fun j => slice_timebin tL tR n time (fun t => lum t j))
  let slicesA ← (List.range 3).mapM
    (fun j => slice_timebin tL tR n time (fun t => avg t j))
  let slicesR ← (List.range 3).mapM
    (fun j => slice_timebin tL tR n time (fun t => rms t j))
  let ts := (slicesL.getD 0 ([], [])).1
  let flux := get_flux_spectrum powQ expQ gammaQ piQ e_bins
    (fun m j => (slicesL.getD j ([], [])).2.getD m 0)
    (fun m j => (slicesA.getD j ([], [])).2.getD m 0)
    (fun m j => (slicesR.getD j ([], [])).2.getD m 0) dist
  pure ((List.range 3).map (fun j => (List.range e_bins.length).map (fun k =>
    trapz ((List.range ts.length).map (fun m => flux m j k)) ts)))

/-- `convert.get_fluences`: infer `dt` from the first two bin edges (an
index error if there are fewer than two bins), close the bin-edge list,
compute one fluence row per time bin and store the result per flavor as
`[flavor][timebin][energy bin]` (the source keys the 2D arrays by the three
flavors 'e', 'a', 'x'). -/
def get_fluences (powQ : ℚ → ℚ → ℚ) (expQ gammaQ : ℚ → ℚ) (piQ : ℚ)
    (n : ℕ) (time : ℕ → ℚ) (lum avg rms : ℕ → ℕ → ℚ) (dist : ℚ)
    (timebins e_bins : List ℚ) : Option (List (List (List ℚ))) :=
  if timebins.length < 2 then none
  else
    match (List.range timebins.length).mapM (fun i =>
      fluence_bin powQ expQ gammaQ piQ n time lum avg rms dist e_bins
        ((full_timebins timebins).getD i 0)
        ((full_timebins timebins).getD (i + 1) 0)) with
    | none => none
    | some rows => some ((List.range 3).map (fun j =>
        rows.map (fun r => r.getD j [])))

lemma mapM_option_some {α β : Type} (f : α → Option β) :
    ∀ (l : List α) (r : List β), l.mapM f = some r →
      r.length = l.length ∧
      ∀ i hi hi', f (l.get ⟨i, hi⟩) = some (r.get ⟨i, hi'⟩) := by
  intro l
  induction l with
  | nil =>
    intro r h
    simp only [List.mapM_nil, pure, Option.some.injEq] at h
    subst h
    exact ⟨rfl, fun i hi hi' => by simp at hi⟩
  | cons a l ih =>
    intro r h
    rw [List.mapM_cons] at h
    cases hfa : f a with
    | none => rw [hfa] at h; simp at h
    | some b =>
      rw [hfa] at h
      cases hml : l.mapM f with
      | none => rw [hml] at h; simp at h
      | some bs =>
        rw [hml] at h
        simp at h
        subst h
        obtain ⟨hlen, hget⟩ := ih bs hml
        refine ⟨by simp [hlen], fun i hi hi' => ?_⟩
        cases i with
        | zero => simpa using hfa
        | succ i' =>
          simpa using hget i' (by simpa using hi) (by simpa using hi')

lemma mapM_range_some {β : Type} (f : ℕ → Option β) (d : β) (nn : ℕ)
    (r : List β) (h : (List.range nn).mapM f = some r) :
    r.length = nn ∧ ∀ i, i < nn → f i = some (r.getD i d) := by
  obtain ⟨hlen, hget⟩ := mapM_option_some f (List.range nn) r h
  rw [List.length_range] at hlen
  refine ⟨hlen, fun i hi => ?_⟩
  have h1 := hget i (by simpa using hi) (by omega)
  rw [List.get_eq_getElem, List.getElem_range] at h1
  rw [h1]
  congr 1
  rw [List.getD_eq_getElem r d (by omega)]
  simp

lemma getD_range_map {β : Type} (g : ℕ → β) (d : β) (nn m : ℕ) (h : m < nn) :
    ((List.range nn).map g).getD m d = g m := by
  rw [List.getD_eq_getElem _ _ (by simpa using h)]
  simp

lemma getD_map_lt {α β : Type} (g : α → β) (l : List α) (d : β) (d' : α)
    (i : ℕ) (h : i < l.length) :
    (l.map g).getD i d = g (l.getD i d') := by
  rw [List.getD_eq_getElem _ _ (by simpa using h), List.getD_eq_getElem _ _ h]
  simp

/-- `trapz` applied to samples of a function on the index range of `x`. -/
lemma trapz_map_getD (g : ℕ → ℚ) (x : List ℚ) :
    trapz ((List.range x.length).map g) x =
      ∑ m ∈ Finset.range (x.length - 1),
        (x.getD (m + 1) 0 - x.getD m 0) * (g m + g (m + 1)) / 2 := by
  unfold trapz
  apply Finset.sum_congr rfl
  intro m hm
  rw [Finset.mem_range] at hm
  rw [getD_range_map g 0 x.length m (by omega),
      getD_range_map g 0 x.length (m + 1) (by omega)]

/-- C6: whenever `get_fluences` succeeds, every entry `[flavor][bin][e]` of
its result is the trapezoidal-rule integral, over the bin-local edge-exact
time slice produced by `slice_timebin`, of the bin-local flux spectrum
evaluated at the bin-local samples:
`Σ_m (t[m+1] − t[m]) · (flux[m] + flux[m+1]) / 2`. -/
theorem get_fluences_trapz (powQ : ℚ → ℚ → ℚ) (expQ gammaQ : ℚ → ℚ) (piQ : ℚ)
    (n : ℕ) (time : ℕ → ℚ) (lum avg rms : ℕ → ℕ → ℚ) (dist : ℚ)
    (timebins e_bins : List ℚ) (F : List (List (List ℚ)))
    (hF : get_fluences powQ expQ gammaQ piQ n time lum avg rms dist timebins e_bins
      = some F)
    (i j k : ℕ) (hi : i < timebins.length) (hj : j < 3) (hk : k < e_bins.length) :
    ∃ sL sA sR : List (List ℚ × List ℚ),
      (∀ j', j' < 3 →
        slice_timebin ((full_timebins timebins).getD i 0)
          ((full_timebins timebins).getD (i + 1) 0) n time (fun t => lum t j')
          = some (sL.getD j' ([], []))) ∧
      (∀ j', j' < 3 →
        slice_timebin ((full_timebins timebins).getD i 0)
          ((full_timebins timebins).getD (i + 1) 0) n time (fun t => avg t j')
          = some (sA.getD j' ([], []))) ∧
      (∀ j', j' < 3 →
        slice_timebin ((full_timebins timebins).getD i 0)
          ((full_timebins timebins).getD (i + 1) 0) n time (fun t => rms t j')
          = some (sR.getD j' ([], []))) ∧
      ((F.getD j []).getD i []).getD k 0 =
        ∑ m ∈ Finset.range ((sL.getD 0 ([], [])).1.length - 1),
          ((sL.getD 0 ([], [])).1.getD (m + 1) 0 - (sL.getD 0 ([], [])).1.getD m 0) *
            (get_flux_spectrum powQ expQ gammaQ piQ e_bins
                (fun m' j' => (sL.getD j' ([], [])).2.getD m' 0)
                (fun m' j' => (sA.getD j' ([], [])).2.getD m' 0)
                (fun m' j' => (sR.getD j' ([], [])).2.getD m' 0) dist m j k +
              get_flux_spectrum powQ expQ gammaQ piQ e_bins
                (fun m' j' => (sL.getD j' ([], [])).2.getD m' 0)
                (fun m' j' => (sA.getD j' ([], [])).2.getD m' 0)
                (fun m' j' => (sR.getD j' ([], [])).2.getD m' 0) dist (m + 1) j k) / 2 := by
  unfold get_fluences at hF
  rcases Nat.lt_or_ge timebins.length 2 with h2 | h2
  · rw [if_pos h2] at hF
    exact absurd hF (by simp)
  rw [if_neg (by omega)] at hF
  cases hrows : (List.range timebins.length).mapM (fun i' =>
      fluence_bin powQ expQ gammaQ piQ n time lum avg rms dist e_bins
        ((full_timebins timebins).getD i' 0)
        ((full_timebins timebins).getD (i' + 1) 0)) with
  | none => rw [hrows] at hF; exact absurd hF (by simp)
  | some rows =>
    rw [hrows] at hF
    replace hF : F = (List.range 3).map (fun j' => rows.map (fun r => r.getD j' [])) := by
      simpa using hF.symm
    obtain ⟨hrlen, hrget⟩ := mapM_range_some _ ([] : List (List ℚ)) _ rows hrows
    have hbin := hrget i hi
    unfold fluence_bin at hbin
    cases hsl : (List.range 3).mapM (fun j' =>
        slice_timebin ((full_timebins timebins).getD i 0)
          ((full_timebins timebins).getD (i + 1) 0) n time (fun t => lum t j')) with
    | none => rw [hsl] at hbin; exact absurd hbin (by simp)
    | some sL =>
      rw [hsl] at hbin
      cases hsa : (List.range 3).mapM (fun j' =>
          slice_timebin ((full_timebins timebins).getD i 0)
            ((full_timebins timebins).getD (i + 1) 0) n time (fun t => avg t j')) with
      | none => rw [hsa] at hbin; exact absurd hbin (by simp)
      | some sA =>
        rw [hsa] at hbin
        cases hsr : (List.range 3).mapM (fun j' =>
            slice_timebin ((full_timebins timebins).getD i 0)
              ((full_timebins timebins).getD (i + 1) 0) n time (fun t => rms t j')) with
        | none => rw [hsr] at hbin; exact absurd hbin (by simp)
        | some sR =>
          rw [hsr] at hbin
          simp only [Option.bind_eq_bind', Option.some_bind', Option.pure_def,
            Option.some.injEq] at hbin
          refine ⟨sL, sA, sR,
            fun j' hj' => (mapM_range_some _ ([], []) 3 sL hsl).2 j' hj',
            fun j' hj' => (mapM_range_some _ ([], []) 3 sA hsa).2 j' hj',
            fun j' hj' => (mapM_range_some _ ([], []) 3 sR hsr).2 j' hj', ?_⟩
          rw [hF, getD_range_map _ _ 3 j hj,
            getD_map_lt _ rows [] [] i (by omega), ← hbin,
            getD_range_map _ _ 3 j hj,
            getD_range_map _ _ e_bins.length k hk,
            trapz_map_getD]

/-- Concrete raw time array `[0, 1, 2, 5]` used in the fluence example. -/
def timeD : ℕ → ℚ :=
  fun i => if i = 0 then 0 else if i = 1 then 1 else if i = 2 then 2 else 5

/-- Constant stand-in for `x ** y` in the fluence example. -/
def powZ : ℚ → ℚ → ℚ := fun _ _ => 0

/-- Constant stand-in for `exp` in the fluence example. -/
def expZ : ℚ → ℚ := fun _ => 0

/-- Constant stand-in for `Γ` in the fluence example. -/
def gammaOne : ℚ → ℚ := fun _ => 1

/-- Constant luminosity array in the fluence example. -/
def lumD : ℕ → ℕ → ℚ := fun _ _ => 1

/-- Constant mean-energy array in the fluence example. -/
def avgD : ℕ → ℕ → ℚ := fun _ _ => 1

/-- Constant rms-energy array in the fluence example. -/
def rmsD : ℕ → ℕ → ℚ := fun _ _ => 2

lemma timeD_interp (c : ℚ) :
    interpolate_time 1 4 timeD (fun _ => c) = .ok c ∧
    interpolate_time 2 4 timeD (fun _ => c) = .ok c ∧
    interpolate_time 3 4 timeD (fun _ => c) = .ok c := by
  have hs1 : searchsorted 4 timeD 1 = 1 := by decide
  have hs2 : searchsorted 4 timeD 2 = 2 := by decide
  have hs3 : searchsorted 4 timeD 3 = 3 := by decide
  refine ⟨?_, ?_, ?_⟩
  · simp only [interpolate_time, hs1]
    norm_num [pyGet, timeD, show Int.toNat 0 = 0 from rfl,
      show Int.toNat 1 = 1 from rfl]
  · simp only [interpolate_time, hs2]
    norm_num [pyGet, timeD, show Int.toNat 1 = 1 from rfl,
      show Int.toNat 2 = 2 from rfl]
  · simp only [interpolate_time, hs3]
    norm_num [pyGet, timeD, show Int.toNat 2 = 2 from rfl,
      show Int.toNat 3 = 3 from rfl]
    ring

lemma timeD_slice (c : ℚ) :
    slice_timebin 1 2 4 timeD (fun _ => c) = some ([1, 1, 2], [c, c, c]) ∧
    slice_timebin 2 3 4 timeD (fun _ => c) = some ([2, 2, 3], [c, c, c]) := by
  obtain ⟨h1, h2, h3⟩ := timeD_interp c
  have hs1 : searchsorted 4 timeD 1 = 1 := by decide
  have hs2 : searchsorted 4 timeD 2 = 2 := by decide
  have hs3 : searchsorted 4 timeD 3 = 3 := by decide
  constructor
  · simp only [slice_timebin, hs1, hs2, h1, h2]
    norm_num [pySliceF, pyClamp, setFirstLast, timeD,
      show Int.toNat 3 = 3 from rfl, show Int.toNat 4 = 4 from rfl,
      show List.range 3 = [0, 1, 2] from rfl, List.replicate]
  · simp only [slice_timebin, hs2, hs3, h2, h3]
    norm_num [pySliceF, pyClamp, setFirstLast, timeD,
      show Int.toNat 3 = 3 from rfl, show Int.toNat 4 = 4 from rfl,
      show List.range 3 = [0, 1, 2] from rfl, List.replicate]

lemma fluence_bin_value (tL tR : ℚ) (ts : List ℚ)
    (hL : slice_timebin tL tR 4 timeD (fun _ => (1 : ℚ)) = some (ts, [1, 1, 1]))
    (hR : slice_timebin tL tR 4 timeD (fun _ => (2 : ℚ)) = some (ts, [2, 2, 2]))
    (hts : ts.length = 3) :
    fluence_bin powZ expZ gammaOne 1 4 timeD lumD avgD rmsD 1 [1, 2] tL tR
      = some [[0, 0], [0, 0], [0, 0]] := by
  unfold fluence_bin
  rw [show List.range 3 = [0, 1, 2] from rfl]
  simp only [List.mapM_cons, List.mapM_nil, lumD, avgD, rmsD, hL, hR,
    Option.bind_eq_bind', Option.some_bind', Option.pure_def]
  simp only [List.getD_cons_zero, List.getD_cons_succ]
  rw [hts]
  rw [show List.range 3 = [0, 1, 2] from rfl,
    show List.range (List.length [(1 : ℚ), 2]) = [0, 1] from rfl]
  norm_num [get_flux_spectrum, get_phi, get_alpha, powZ, expZ, gammaOne,
    trapz]
  simp [hts, Finset.sum_range_succ]

lemma get_fluences_value :
    get_fluences powZ expZ gammaOne 1 4 timeD lumD avgD rmsD 1 [1, 2] [1, 2]
      = some [[[0, 0], [0, 0]], [[0, 0], [0, 0]], [[0, 0], [0, 0]]] := by
  have hfull : full_timebins [1, 2] = [1, 2, 3] := by
    norm_num [full_timebins]
  have hb1 : fluence_bin powZ expZ gammaOne 1 4 timeD lumD avgD rmsD 1 [1, 2] 1 2
      = some [[0, 0], [0, 0], [0, 0]] :=
    fluence_bin_value 1 2 [1, 1, 2] (timeD_slice 1).1 (timeD_slice 2).1 rfl
  have hb2 : fluence_bin powZ expZ gammaOne 1 4 timeD lumD avgD rmsD 1 [1, 2] 2 3
      = some [[0, 0], [0, 0], [0, 0]] :=
    fluence_bin_value 2 3 [2, 2, 3] (timeD_slice 1).2 (timeD_slice 2).2 rfl
  unfold get_fluences
  rw [if_neg (by norm_num)]
  rw [show List.range (List.length [(1 : ℚ), 2]) = [0, 1] from rfl]
  simp only [List.mapM_cons, List.mapM_nil, hfull]
  norm_num [hb1, hb2, show List.range 3 = [0, 1, 2] from rfl]

/-- Witness for C6 at a concrete input (first bin, first flavor, first
energy bin of the example pipeline run). -/
theorem get_fluences_trapz_witness :
    ∃ sL sA sR : List (List ℚ × List ℚ),
      (∀ j', j' < 3 →
        slice_timebin ((full_timebins [1, 2]).getD 0 0)
          ((full_timebins [1, 2]).getD (0 + 1) 0) 4 timeD (fun t => lumD t j')
          = some (sL.getD j' ([], []))) ∧
      (∀ j', j' < 3 →
        slice_timebin ((full_timebins [1, 2]).getD 0 0)
          ((full_timebins [1, 2]).getD (0 + 1) 0) 4 timeD (fun t => avgD t j')
          = some (sA.getD j' ([], []))) ∧
      (∀ j', j' < 3 →
        slice_timebin ((full_timebins [1, 2]).getD 0 0)
          ((full_timebins [1, 2]).getD (0 + 1) 0) 4 timeD (fun t => rmsD t j')
          = some (sR.getD j' ([], []))) ∧
      ((([[[(0 : ℚ), 0], [0, 0]], [[0, 0], [0, 0]],
          [[0, 0], [0, 0]]].getD 0 []).getD 0 []).getD 0 0 =
        ∑ m ∈ Finset.range ((sL.getD 0 ([], [])).1.length - 1),
          ((sL.getD 0 ([], [])).1.getD (m + 1) 0 - (sL.getD 0 ([], [])).1.getD m 0) *
            (get_flux_spectrum powZ expZ gammaOne 1 [1, 2]
                (fun m' j' => (sL.getD j' ([], [])).2.getD m' 0)
                (fun m' j' => (sA.getD j' ([], [])).2.getD m' 0)
                (fun m' j' => (sR.getD j' ([], [])).2.getD m' 0) 1 m 0 0 +
              get_flux_spectrum powZ expZ gammaOne 1 [1, 2]
                (fun m' j' => (sL.getD j' ([], [])).2.getD m' 0)
                (fun m' j' => (sA.getD j' ([], [])).2.getD m' 0)
                (fun m' j' => (sR.getD j' ([], [])).2.getD m' 0) 1 (m + 1) 0 0) / 2) :=
  get_fluences_trapz powZ expZ gammaOne 1 4 timeD lumD avgD rmsD 1 [1, 2] [1, 2]
    [[[0, 0], [0, 0]], [[0, 0], [0, 0]], [[0, 0], [0, 0]]] get_fluences_value
    0 0 0 (by norm_num) (by omega) (by norm_num)

/-- Python dict lookup: the value stored under key `k`, if present (dicts
are modelled as association lists in insertion order). -/
def dictFind {α : Type} (d : List (String × α)) (k : String) : Option α :=
  (d.find? (fun p => p.1 == k)).map Prod.snd

/-- Python dict lookup with a default value. -/
def dictGetD {α : Type} (d : List (String × α)) (k : String) (v₀ : α) : α :=
  (dictFind d k).getD v₀

/-- Python dict assignment `d[k] = v`: overwrite in place when the key
exists (keeping its position), append otherwise. -/
def dictSet {α : Type} (d : List (String × α)) (k : String) (v : α) :
    List (String × α) :=
  if d.any (fun p => p.1 == k) then
    d.map (fun p => if p.1 == k then (k, v) else p)
  else d ++ [(k, v)]

lemma dictFind_dictSet_self {α : Type} (d : List (String × α)) (k : String)
    (v : α) : dictFind (dictSet d k v) k = some v := by
  unfold dictSet
  by_cases h : d.any (fun p => p.1 == k)
  · rw [if_pos h]
    induction d with
    | nil => simp at h
    | cons p d ih =>
      simp only [List.any_cons, Bool.or_eq_true] at h
      simp only [List.map_cons]
      unfold dictFind
      rw [List.find?_cons]
      by_cases hp : (p.1 == k) = true
      · rw [if_pos hp]
        simp
      · rw [if_neg hp]
        simp only [hp, Bool.false_eq_true, false_or] at h
        simp only [hp, cond_false]
        exact ih h
  · rw [if_neg h]
    unfold dictFind
    rw [List.find?_append]
    have hnone : d.find? (fun p => p.1 == k) = none := by
      rw [List.find?_eq_none]
      intro p hp
      intro hc
      exact h (List.any_of_mem hp hc)
    rw [hnone]
    simp

lemma dictFind_dictSet_ne {α : Type} (d : List (String × α)) (k k' : String)
    (v : α) (h : k ≠ k') : dictFind (dictSet d k v) k' = dictFind d k' := by
  have hmap : ∀ l : List (String × α),
      (l.map (fun p => if p.1 == k then (k, v) else p)).find? (fun p => p.1 == k')
        = l.find? (fun p => p.1 == k') := by
    intro l
    induction l with
    | nil => rfl
    | cons p l ih =>
      simp only [List.map_cons]
      rw [List.find?_cons, List.find?_cons]
      by_cases hp : (p.1 == k) = true
      · rw [if_pos hp]
        have hpk : p.1 = k := by simpa using hp
        have h1 : (k == k') = false := by simpa using h
        have h2 : (p.1 == k') = false := by
          rw [hpk]
          simpa using h
        simp only [h1, h2, cond_false]
        exact ih
      · rw [if_neg hp]
        cases hpk' : (p.1 == k') with
        | true => simp [hpk']
        | false => simp only [hpk', cond_false]; exact ih
  unfold dictSet
  by_cases hany : d.any (fun p => p.1 == k)
  · rw [if_pos hany]
    unfold dictFind
    rw [hmap d]
  · rw [if_neg hany]
    unfold dictFind
    rw [List.find?_append]
    have h1 : ([(k, v)].find? (fun p => p.1 == k')) = none := by
      simp [show (k == k') = false by simpa using h]
    rw [h1]
    simp

/-- The `counts` accumulation loop of `analysis.get_group_counts`:
`counts = zeros; for chan in sub_channels: counts += channel_counts[chan]`. -/
def group_sum (channel_counts : String → ℕ → ℚ) (subs : List String)
    (e : ℕ) : ℚ :=
  (subs.map (fun chan => channel_counts chan e)).sum

/-- `analysis.get_group_counts`: start from `{'Total': zeros}`, then for
each configured group add its channel sum into `'Total'` and store it under
the group's own name.  Count arrays (length `n_bins`) are modelled as
functions `ℕ → ℚ`. -/
def get_group_counts (channel_counts : String → ℕ → ℚ)
    (groups : List (String × List String)) (n_bins : ℕ) :
    List (String × (ℕ → ℚ)) :=
  groups.foldl (fun gc p =>
    let counts : ℕ → ℚ := fun e => group_sum channel_counts p.2 e
    let gc1 := dictSet gc "Total"
      (fun e => dictGetD gc "Total" (fun _ => 0) e + counts e)
    dictSet gc1 p.1 counts)
    [("Total", fun _ => 0)]

/-- Keys other than `'Total'` and the processed group names are untouched
by the aggregation fold. -/
lemma get_group_counts_fold_preserve (cc : String → ℕ → ℚ) :
    ∀ (gs : List (String × List String)) (acc : List (String × (ℕ → ℚ)))
      (k : String), k ≠ "Total" → k ∉ gs.map Prod.fst →
      dictFind (gs.foldl (fun gc p =>
        dictSet (dictSet gc "Total"
          (fun e => dictGetD gc "Total" (fun _ => 0) e + group_sum cc p.2 e))
          p.1 (fun e => group_sum cc p.2 e)) acc) k = dictFind acc k := by
  intro gs
  induction gs with
  | nil => intro acc k _ _; rfl
  | cons p gs ih =>
    intro acc k hk hmem
    simp only [List.map_cons, List.mem_cons] at hmem
    push_neg at hmem
    rw [List.foldl_cons, ih _ k hk hmem.2,
        dictFind_dictSet_ne _ _ _ _ (fun hc => hmem.1 hc.symm),
        dictFind_dictSet_ne _ _ _ _ (fun hc => hk hc.symm)]

/-- The `'Total'` entry accumulates the group sums of all processed groups
on top of whatever the accumulator already stored. -/
lemma get_group_counts_fold_total (cc : String → ℕ → ℚ) :
    ∀ (gs : List (String × List String)) (acc : List (String × (ℕ → ℚ)))
      (e : ℕ), "Total" ∉ gs.map Prod.fst →
      dictGetD (gs.foldl (fun gc p =>
        dictSet (dictSet gc "Total"
          (fun e => dictGetD gc "Total" (fun _ => 0) e + group_sum cc p.2 e))
          p.1 (fun e => group_sum cc p.2 e)) acc) "Total" (fun _ => 0) e
        = dictGetD acc "Total" (fun _ => 0) e
          + (gs.map (fun p => group_sum cc p.2 e)).sum := by
  intro gs
  induction gs with
  | nil => intro acc e _; simp
  | cons p gs ih =>
    intro acc e hmem
    simp only [List.map_cons, List.mem_cons] at hmem
    push_neg at hmem
    rw [List.foldl_cons, ih _ e hmem.2]
    unfold dictGetD
    rw [dictFind_dictSet_ne _ _ _ _ (fun hc => hmem.1 hc.symm),
        dictFind_dictSet_self]
    simp only [Option.getD_some]
    rw [List.map_cons, List.sum_cons]
    ring

/-- Each configured group's entry ends up holding exactly its channel sum. -/
lemma get_group_counts_fold_group (cc : String → ℕ → ℚ) :
    ∀ (gs : List (String × List String)) (acc : List (String × (ℕ → ℚ)))
      (g : String) (subs : List String) (e : ℕ), (g, subs) ∈ gs →
      (gs.map Prod.fst).Nodup → "Total" ∉ gs.map Prod.fst →
      dictGetD (gs.foldl (fun gc p =>
        dictSet (dictSet gc "Total"
          (fun e => dictGetD gc "Total" (fun _ => 0) e + group_sum cc p.2 e))
          p.1 (fun e => group_sum cc p.2 e)) acc) g (fun _ => 0) e
        = group_sum cc subs e := by
  intro gs
  induction gs with
  | nil => intro acc g subs e hmem; simp at hmem
  | cons p gs ih =>
    intro acc g subs e hmem hnodup htot
    simp only [List.map_cons, List.mem_cons] at htot
    push_neg at htot
    rw [List.map_cons, List.nodup_cons] at hnodup
    rw [List.foldl_cons]
    rcases List.mem_cons.mp hmem with heq | htl
    · subst heq
      have hgd : ∀ (d : List (String × (ℕ → ℚ))) (k : String),
          dictGetD d k (fun _ => (0 : ℚ)) = (dictFind d k).getD (fun _ => 0) :=
        fun d k => rfl
      rw [hgd, get_group_counts_fold_preserve cc gs _ g (fun hc => htot.1 hc.symm)
          hnodup.1, dictFind_dictSet_self]
      simp
    · exact ih _ g subs e htl hnodup.2 htot.2

/-- C7 (amended): for every channel-count array and every configuration
mapping distinct group names to channel lists, none of the names being the
reserved key `'Total'`, the sum over all configured groups of their count
arrays equals the `'Total'` entry of `get_group_counts`, at every energy
bin, exactly. -/
theorem get_group_counts_consistent (cc : String → ℕ → ℚ)
    (groups : List (String × List String)) (n_bins : ℕ)
    (hnodup : (groups.map Prod.fst).Nodup)
    (htotal : "Total" ∉ groups.map Prod.fst) (e : ℕ) :
    (groups.map (fun p =>
        dictGetD (get_group_counts cc groups n_bins) p.1 (fun _ => 0) e)).sum
      = dictGetD (get_group_counts cc groups n_bins) "Total" (fun _ => 0) e := by
  have hL : groups.map (fun p =>
      dictGetD (get_group_counts cc groups n_bins) p.1 (fun _ => 0) e)
      = groups.map (fun p => group_sum cc p.2 e) := by
    apply List.map_congr_left
    intro p hp
    have hmem : (p.1, p.2) ∈ groups := by simpa using hp
    unfold get_group_counts
    dsimp only
    exact get_group_counts_fold_group cc groups _ p.1 p.2 e hmem hnodup htotal
  rw [hL]
  unfold get_group_counts
  dsimp only
  rw [get_group_counts_fold_total cc groups _ e htotal]
  simp [dictGetD, dictFind]

/-- Witness for C7's amended theorem at a concrete configuration. -/
theorem get_group_counts_consistent_witness :
    ([("IBD", ["ibd"]), ("ES", ["nue_e", "nuebar_e"])].map (fun p =>
        dictGetD (get_group_counts (fun _ _ => (1 : ℚ))
          [("IBD", ["ibd"]), ("ES", ["nue_e", "nuebar_e"])] 2) p.1
          (fun _ => 0) 0)).sum
      = dictGetD (get_group_counts (fun _ _ => (1 : ℚ))
          [("IBD", ["ibd"]), ("ES", ["nue_e", "nuebar_e"])] 2) "Total"
          (fun _ => 0) 0 :=
  get_group_counts_consistent (fun _ _ => 1)
    [("IBD", ["ibd"]), ("ES", ["nue_e", "nuebar_e"])] 2
    (by simp) (by simp) 0

/-- C7 counterexample: a configuration containing a group literally named
`'Total'` aliases the reserved accumulator key, so the sum over configured
groups (3) differs from the final `'Total'` entry (2). -/
theorem get_group_counts_total_alias_counterexample :
    ([("Total", ["c1"]), ("G", ["c2"])].map (fun p =>
        dictGetD (get_group_counts (fun _ _ => (1 : ℚ))
          [("Total", ["c1"]), ("G", ["c2"])] 1) p.1 (fun _ => 0) 0)).sum
      ≠ dictGetD (get_group_counts (fun _ _ => (1 : ℚ))
          [("Total", ["c1"]), ("G", ["c2"])] 1) "Total" (fun _ => 0) 0 := by
  have h1 : ("Total" = "G") = False := eq_false (by decide)
  have h2 : ("G" = "Total") = False := eq_false (by decide)
  norm_num [get_group_counts, group_sum, dictSet, dictGetD, dictFind, h1, h2]

/-- `analysis.get_avg`: per group, mean energy
`Σ_e counts[e]·energy_bins[e] / total` when `total != 0`, else exactly `0`.
A group of the totals dict with no counts array is a lookup error. -/
def get_avg (group_counts : List (String × (ℕ → ℚ)))
    (group_totals : List (String × ℚ)) (energy_bins : List ℚ) :
    Option (List (String × ℚ)) :=
  group_totals.mapM (fun p => (dictFind group_counts p.1).map (fun counts =>
    (p.1, if p.2 ≠ 0 then
        (∑ e ∈ Finset.range energy_bins.length,
          counts e * energy_bins.getD e 0) / p.2
      else 0)))

/-- C8: whenever every group of the totals dict has a counts array,
`get_avg` succeeds and reports, for each group, mean energy
`Σ_e counts[e]·energy_bins[e] / total` when the total is nonzero and
exactly `0` when the total is zero — the zero-total case yields the plain
number `0`, never a division and never an error. -/
theorem get_avg_spec (group_counts : List (String × (ℕ → ℚ)))
    (group_totals : List (String × ℚ)) (energy_bins : List ℚ)
    (h : ∀ p ∈ group_totals, (dictFind group_counts p.1).isSome) :
    get_avg group_counts group_totals energy_bins =
      some (group_totals.map (fun p =>
        (p.1, if p.2 = 0 then 0
          else (∑ e ∈ Finset.range energy_bins.length,
              ((dictFind group_counts p.1).getD (fun _ => 0)) e *
                energy_bins.getD e 0) / p.2))) := by
  induction group_totals with
  | nil => rfl
  | cons p l ih =>
    unfold get_avg at ih ⊢
    rw [List.mapM_cons]
    have hp : (dictFind group_counts p.1).isSome := h p (List.mem_cons_self p l)
    obtain ⟨counts, hc⟩ := Option.isSome_iff_exists.mp hp
    rw [hc, ih (fun q hq => h q (List.mem_cons_of_mem p hq))]
    simp only [Option.map_some', Option.bind_eq_bind', Option.some_bind',
      Option.pure_def, Option.some.injEq, List.map_cons]
    congr 1
    rw [hc]
    simp only [Option.getD_some]
    rw [ite_not]

/-- Witness for C8 at a concrete input, exercising both a nonzero total and
the zero-total convention. -/
theorem get_avg_spec_witness :
    get_avg [("A", fun _ => (2 : ℚ)), ("B", fun _ => 3)]
        [("A", 4), ("B", 0)] [1, 2]
      = some ([("A", (4 : ℚ)), ("B", 0)].map (fun p =>
        (p.1, if p.2 = 0 then 0
          else (∑ e ∈ Finset.range (List.length [(1 : ℚ), 2]),
              ((dictFind [("A", fun _ => (2 : ℚ)), ("B", fun _ => 3)] p.1).getD
                (fun _ => 0)) e * [(1 : ℚ), 2].getD e 0) / p.2))) :=
  get_avg_spec [("A", fun _ => (2 : ℚ)), ("B", fun _ => 3)]
    [("A", 4), ("B", 0)] [1, 2]
    (by intro p hp; fin_cases hp <;> simp [dictFind])

/-- Float division as xarray performs it: a zero denominator yields a
non-finite value (NaN or ±inf), modelled as `none`. -/
def fdiv (a b : ℚ) : Option ℚ := if b = 0 then none else some (a / b)

/-- `snow_tools.time_integrate`, `Tot_<channel>` column: slice the leading
`n_bins` timesteps (xarray's `isel(Time=slice(0, n_bins))` keeps
`min(n_bins, n_time)` of them) and sum over time, per mass `m`. -/
def time_integrate_tot (n_time : ℕ) (Tot : ℕ → ℕ → ℚ) (n_bins m : ℕ) : ℚ :=
  ∑ t ∈ Finset.range (min n_bins n_time), Tot m t

/-- `snow_tools.time_integrate`, `Avg_<channel>` column:
`(Σ Avg·Tot) / total_counts`, an unguarded division. -/
def time_integrate_avg (n_time : ℕ) (Avg Tot : ℕ → ℕ → ℚ)
    (n_bins m : ℕ) : Option ℚ :=
  fdiv (∑ t ∈ Finset.range (min n_bins n_time), Avg m t * Tot m t)
    (time_integrate_tot n_time Tot n_bins m)

/-- `snow_tools.get_cumulative`: one `time_integrate` per window size
`b = 1 .. max_n_bins`, collected in order. -/
def get_cumulative (n_time : ℕ) (Avg Tot : ℕ → ℕ → ℚ) (max_n_bins : ℕ) :
    List ((ℕ → ℚ) × (ℕ → Option ℚ)) :=
  (List.range max_n_bins).map (fun idx =>
    (time_integrate_tot n_time Tot (idx + 1),
     time_integrate_avg n_time Avg Tot (idx + 1)))

/-- C1 (amended): per mass and per channel, the window total is the sum of
the per-timestep `Tot` values over the first `n_bins` timesteps; the window
mean energy is `(Σ Avg·Tot)/window_total` when the window total is nonzero,
but when the window total is zero the unguarded division produces a
non-finite value (NaN), not the value `0`. -/
theorem time_integrate_spec (n_time : ℕ) (Avg Tot : ℕ → ℕ → ℚ)
    (n_bins m : ℕ) (h1 : 1 ≤ n_bins) (hn : n_bins ≤ n_time) :
    time_integrate_tot n_time Tot n_bins m
        = ∑ t ∈ Finset.range n_bins, Tot m t ∧
    (time_integrate_tot n_time Tot n_bins m ≠ 0 →
      time_integrate_avg n_time Avg Tot n_bins m
        = some ((∑ t ∈ Finset.range n_bins, Avg m t * Tot m t)
            / (∑ t ∈ Finset.range n_bins, Tot m t))) ∧
    (time_integrate_tot n_time Tot n_bins m = 0 →
      time_integrate_avg n_time Avg Tot n_bins m = none) := by
  have hmin : min n_bins n_time = n_bins := min_eq_left hn
  have htoteq : time_integrate_tot n_time Tot n_bins m
      = ∑ t ∈ Finset.range n_bins, Tot m t := by
    unfold time_integrate_tot
    rw [hmin]
  refine ⟨htoteq, ?_, ?_⟩
  · intro hne
    unfold time_integrate_avg fdiv
    rw [if_neg hne, hmin, htoteq]
  · intro hzero
    unfold time_integrate_avg fdiv
    rw [if_pos hzero]

/-- Witness for C1's amended theorem, exercising both the nonzero-total and
the zero-total (non-finite) branches. -/
theorem time_integrate_spec_witness :
    time_integrate_avg 2 (fun _ _ => 1) (fun _ _ => 1) 1 0 = some 1 ∧
    time_integrate_avg 2 (fun _ _ => 1) (fun _ _ => 0) 1 0 = none := by
  constructor
  · have h := (time_integrate_spec 2 (fun _ _ => 1) (fun _ _ => 1) 1 0
      (by omega) (by omega)).2.1 (by norm_num [time_integrate_tot])
    rw [h]
    norm_num
  · exact (time_integrate_spec 2 (fun _ _ => 1) (fun _ _ => 0) 1 0
      (by omega) (by omega)).2.2 (by norm_num [time_integrate_tot])

/-- C1 counterexample: a window whose totals are all zero makes the mean
energy a non-finite value (0/0, i.e. NaN) — not the claimed exact `0`. -/
theorem time_integrate_avg_zero_total_nan :
    time_integrate_avg 1 (fun _ _ => 1) (fun _ _ => 0) 1 0 = none ∧
    time_integrate_avg 1 (fun _ _ => 1) (fun _ _ => 0) 1 0 ≠ some 0 := by
  norm_num [time_integrate_avg, time_integrate_tot, fdiv]
  decide

/-- C9: entry `k` (1-based) of `get_cumulative` is exactly the fixed-window
`time_integrate` at `n_bins = k`, and its window total is the sum of the
per-timestep totals for timesteps `0 .. k-1`. -/
theorem get_cumulative_matches (n_time : ℕ) (Avg Tot : ℕ → ℕ → ℚ)
    (max_n_bins k m : ℕ) (h1 : 1 ≤ k) (h2 : k ≤ max_n_bins)
    (h3 : k ≤ n_time) :
    (get_cumulative n_time Avg Tot max_n_bins).getD (k - 1)
        (fun _ => 0, fun _ => none)
      = (time_integrate_tot n_time Tot k, time_integrate_avg n_time Avg Tot k) ∧
    time_integrate_tot n_time Tot k m = ∑ t ∈ Finset.range k, Tot m t := by
  constructor
  · unfold get_cumulative
    rw [getD_range_map _ _ max_n_bins (k - 1) (by omega),
        show k - 1 + 1 = k by omega]
  · unfold time_integrate_tot
    rw [min_eq_left h3]

/-- Witness for C9 at a concrete input. -/
theorem get_cumulative_matches_witness :
    (get_cumulative 1 (fun _ _ => (1 : ℚ)) (fun _ _ => (2 : ℚ)) 2).getD 0
        (fun _ => 0, fun _ => none)
      = (time_integrate_tot 1 (fun _ _ => 2) 1,
         time_integrate_avg 1 (fun _ _ => 1) (fun _ _ => 2) 1) ∧
    time_integrate_tot 1 (fun _ _ => 2) 1 0 = ∑ _t ∈ Finset.range 1, (2 : ℚ) :=
  get_cumulative_matches 1 (fun _ _ => 1) (fun _ _ => 2) 2 1 0
    (by omega) (by omega) (by omega)

/-- Python `int()`: truncation toward zero. -/
def pyInt (q : ℚ) : ℤ := if 0 ≤ q then ⌊q⌋ else -⌊-q⌋

/-- `np.linspace(x0, x1, num, endpoint)`: `num` samples `x0 + i·step` with
`step = (x1 - x0)/(num - 1)` when `endpoint` else `(x1 - x0)/num`; when
`endpoint` and `num > 1` the final sample is set to `x1` exactly.  (For
`endpoint` with `num ≤ 1` numpy skips the final-sample assignment and the
step never multiplies a nonzero index, so the output is just `[x0]` or
`[]`; the rational junk-zero division below reproduces those outputs.) -/
def linspace (x0 x1 : ℚ) (num : ℕ) (endpoint : Bool) : List ℚ :=
  match endpoint with
  | true =>
      let step : ℚ := (x1 - x0) / ((num : ℚ) - 1)
      let base := (List.range num).map (fun i : ℕ => x0 + (i : ℚ) * step)
      if 1 < num then base.set (num - 1) x1 else base
  | false =>
      let step : ℚ := (x1 - x0) / (num : ℚ)
      (List.range num).map (fun i : ℕ => x0 + (i : ℚ) * step)

/-- `convert.get_bins`: `n_bins = int((x1 - x0)/dx)` (plus one when the
endpoint is included), then a `linspace` from `x0` to `x1`. -/
def get_bins (x0 x1 dx : ℚ) (endpoint : Bool) : List ℚ :=
  let n_bins : ℤ := pyInt ((x1 - x0) / dx)
  let n_bins : ℤ := if endpoint then n_bins + 1 else n_bins
  linspace x0 x1 n_bins.toNat endpoint

lemma get_bins_false_eq (x0 x1 dx : ℚ) :
    get_bins x0 x1 dx false
      = linspace x0 x1 (pyInt ((x1 - x0) / dx)).toNat false := rfl

lemma get_bins_true_eq (x0 x1 dx : ℚ) :
    get_bins x0 x1 dx true
      = linspace x0 x1 (pyInt ((x1 - x0) / dx) + 1).toNat true := rfl

lemma linspace_false_eq (x0 x1 : ℚ) (num : ℕ) :
    linspace x0 x1 num false
      = (List.range num).map
          (fun i : ℕ => x0 + (i : ℚ) * ((x1 - x0) / (num : ℚ))) := rfl

lemma linspace_true_eq (x0 x1 : ℚ) (num : ℕ) (h : 1 < num) :
    linspace x0 x1 num true
      = ((List.range num).map
          (fun i : ℕ => x0 + (i : ℚ) * ((x1 - x0) / ((num : ℚ) - 1)))).set
          (num - 1) x1 := by
  unfold linspace
  dsimp only
  rw [if_pos h]

lemma pyInt_of_nonneg (q : ℚ) (h : 0 ≤ q) : pyInt q = ⌊q⌋ := by
  unfold pyInt
  rw [if_pos h]

/-- C10 (amended): for `x0 < x1`, `dx > 0` and `dx ≤ x1 - x0` (so that
`n = int((x1-x0)/dx) ≥ 1`), `get_bins` returns `n` points without endpoint
and `n + 1` points with it; every point `i` equals
`x0 + i·(x1 - x0)/n` (so the points are evenly spaced and start at `x0`,
and with the endpoint the last point is exactly `x1`); and the generated
spacing `(x1 - x0)/n` equals the requested `dx` exactly when `x1 - x0` is
the integer multiple `n·dx` of `dx`.  Without the lower bound on
`x1 - x0`, `n = 0` and the endpoint variant returns the single point
`[x0]`, which does not end at `x1`. -/
theorem get_bins_spec (x0 x1 dx : ℚ) (h01 : x0 < x1) (hdx : 0 < dx)
    (hge : dx ≤ x1 - x0) :
    (get_bins x0 x1 dx false).length = (pyInt ((x1 - x0) / dx)).toNat ∧
    (get_bins x0 x1 dx true).length = (pyInt ((x1 - x0) / dx)).toNat + 1 ∧
    (∀ i, i < (pyInt ((x1 - x0) / dx)).toNat →
      (get_bins x0 x1 dx false).getD i 0
        = x0 + i * ((x1 - x0) / ((pyInt ((x1 - x0) / dx)).toNat : ℚ))) ∧
    (∀ i, i < (pyInt ((x1 - x0) / dx)).toNat + 1 →
      (get_bins x0 x1 dx true).getD i 0
        = x0 + i * ((x1 - x0) / ((pyInt ((x1 - x0) / dx)).toNat : ℚ))) ∧
    (get_bins x0 x1 dx false).getD 0 0 = x0 ∧
    (get_bins x0 x1 dx true).getD ((pyInt ((x1 - x0) / dx)).toNat) 0 = x1 ∧
    ((x1 - x0) / ((pyInt ((x1 - x0) / dx)).toNat : ℚ) = dx ↔
      x1 - x0 = ((pyInt ((x1 - x0) / dx)).toNat : ℚ) * dx) := by
  have hqpos : (0 : ℚ) ≤ (x1 - x0) / dx :=
    div_nonneg (by linarith) (le_of_lt hdx)
  have hq1 : (1 : ℚ) ≤ (x1 - x0) / dx := (one_le_div hdx).mpr hge
  have hfl : 1 ≤ ⌊(x1 - x0) / dx⌋ := Int.le_floor.mpr (by exact_mod_cast hq1)
  have hpi : pyInt ((x1 - x0) / dx) = ⌊(x1 - x0) / dx⌋ :=
    pyInt_of_nonneg _ hqpos
  set nZ : ℤ := pyInt ((x1 - x0) / dx) with hnZ
  have hn1 : 1 ≤ nZ := by omega
  set nn : ℕ := nZ.toNat with hnn
  have hnn1 : 1 ≤ nn := by omega
  have hnnQ : ((nn : ℚ)) ≠ 0 := by
    have : (0 : ℕ) < nn := hnn1
    positivity
  have hfalse : get_bins x0 x1 dx false
      = (List.range nn).map (fun i : ℕ => x0 + (i : ℚ) * ((x1 - x0) / (nn : ℚ))) := by
    rw [get_bins_false_eq, linspace_false_eq]
  have htoNat : (nZ + 1).toNat = nn + 1 := by omega
  have htrue : get_bins x0 x1 dx true
      = ((List.range (nn + 1)).map
          (fun i : ℕ => x0 + (i : ℚ) * ((x1 - x0) / (nn : ℚ)))).set nn x1 := by
    rw [get_bins_true_eq, htoNat, linspace_true_eq _ _ _ (by omega)]
    have hstep : (((nn + 1 : ℕ) : ℚ) - 1) = (nn : ℚ) := by
      push_cast
      ring
    simp only [hstep, Nat.add_sub_cancel]
  refine ⟨?_, ?_, ?_, ?_, ?_, ?_, ?_⟩
  · rw [hfalse]
    simp
  · rw [htrue]
    simp
  · intro i hi
    rw [hfalse, getD_range_map _ _ nn i hi]
  · intro i hi
    rw [htrue]
    rcases Nat.lt_or_ge i nn with h | h
    · rw [List.getD_eq_getElem _ _
            (by simp only [List.length_set, List.length_map, List.length_range]; omega),
          List.getElem_set_ne (by omega)]
      simp
    · have hieq : i = nn := by omega
      subst hieq
      rw [List.getD_eq_getElem _ _
            (by simp only [List.length_set, List.length_map, List.length_range]; omega),
          List.getElem_set_self]
      field_simp
  · rw [hfalse, getD_range_map _ _ nn 0 (by omega)]
    simp
  · rw [htrue, List.getD_eq_getElem _ _
          (by simp only [List.length_set, List.length_map, List.length_range]; omega),
        List.getElem_set_self]
  · constructor
    · intro hs
      rw [← hs]
      field_simp
    · intro hmul
      rw [hmul]
      field_simp

/-- Witness for C10's amended theorem at `x0 = 0`, `x1 = 1`, `dx = 1/2`
(`n = 2`): lengths, the exact endpoint, and the interior point. -/
theorem get_bins_spec_witness :
    (get_bins 0 1 (1 / 2) false).length = (pyInt ((1 - 0) / (1 / 2))).toNat ∧
    (get_bins 0 1 (1 / 2) true).getD ((pyInt ((1 - 0) / (1 / 2))).toNat) 0 = 1 ∧
    (get_bins 0 1 (1 / 2) false).getD 1 0
      = 0 + (1 : ℕ) * ((1 - 0) / (((pyInt ((1 - 0) / (1 / 2))).toNat : ℕ) : ℚ)) := by
  obtain ⟨h1, h2, h3, h4, h5, h6, h7⟩ :=
    get_bins_spec 0 1 (1 / 2) (by norm_num) (by norm_num) (by norm_num)
  refine ⟨h1, h6, ?_⟩
  exact h3 1 (by norm_num [pyInt])

/-- C10 counterexample: with `dx > x1 - x0` (so `n = int((x1-x0)/dx) = 0`)
and the endpoint requested, `get_bins` returns the single point `[x0]`,
which does not end at `x1`. -/
theorem get_bins_endpoint_counterexample :
    get_bins 0 1 2 true = [0] ∧ (get_bins 0 1 2 true).getLast? ≠ some 1 := by
  have h : get_bins 0 1 2 true = [0] := by
    rw [get_bins_true_eq]
    norm_num [pyInt, linspace]
  refine ⟨h, ?_⟩
  rw [h]
  decide

end FlashSnowglobes
